import Mathlib

/-!
Shallow embedding of `src/src/with_alloc/alloc_ringbuffer.rs` (the
`AllocRingBuffer` fixed-capacity ring buffer) and proofs about it.

Modelling conventions:
* The raw allocation `buf: *mut T` of `capacity` slots is a
  `List (Option T)` of length `capacity`; `none` models an uninitialized
  slot (`MaybeUninit` semantics).  `ptr::read` moves a value out of a
  slot, after which the slot is logically uninitialized (`none`);
  `ptr::write` stores `some v`.
* The `usize` cursors `readptr`/`writeptr` are `Nat`: they only ever
  increase by one per operation, so machine-width wraparound is not
  reachable in any scenario the specification discusses.
* The compile-time strategy parameter `SIZE: RingbufferSize` is a field
  `mode` of an enumeration with the two sealed implementations.
* Panicking constructors return `Option`, `none` modelling the panic.
-/

/-- The two sealed implementations of the `RingbufferSize` strategy trait. -/
inductive RingbufferSize where
  | powerOfTwo
  | nonPowerOfTwo
deriving DecidableEq, Repr

/-- Strategy dispatch of `RingbufferSize::mask`.  The two implementations
call `crate::mask` and `crate::mask_modulo`, which live outside `src/`;
their bodies here are modelled from the spec:
"Power-of-two strategy: `result = logical_index & (capacity - 1)`.
General strategy: `result = logical_index % capacity`." -/
def RingbufferSize.mask : RingbufferSize → Nat → Nat → Nat
  | .powerOfTwo, cap, index => index &&& (cap - 1)
  | .nonPowerOfTwo, cap, index => index % cap

/-- `AllocRingBuffer<T, SIZE>`: raw buffer, capacity, the two logical
cursors, and the strategy tag (`mode: PhantomData<SIZE>`). -/
structure AllocRingBuffer (T : Type) where
  buf : List (Option T)
  capacity : Nat
  readptr : Nat
  writeptr : Nat
  mode : RingbufferSize
deriving Repr

/-- The capacity of a `RingBuffer` created by new or default (`1024`). -/
def RINGBUFFER_DEFAULT_CAPACITY : Nat := 1024

namespace AllocRingBuffer

variable {T : Type}

/-- Modelled from the spec: `len()` from the trait layer (not under
`src/`): "`write_cursor - read_cursor` = number of live elements". -/
def len (rb : AllocRingBuffer T) : Nat := rb.writeptr - rb.readptr

/-- Modelled from the spec: `is_empty()` from the trait layer (not under
`src/`): empty means `read_cursor == write_cursor`. -/
def is_empty (rb : AllocRingBuffer T) : Bool := rb.writeptr == rb.readptr

/-- Modelled from the spec: `is_full()` from the trait layer (not under
`src/`): full means `write_cursor - read_cursor == capacity`. -/
def is_full (rb : AllocRingBuffer T) : Bool :=
  rb.writeptr - rb.readptr == rb.capacity

/-- Reading the physical slot for logical position `p` (what
`get_unchecked(self, SIZE::mask(capacity, p))` dereferences). -/
def slot (rb : AllocRingBuffer T) (p : Nat) : Option T :=
  rb.buf.getD (rb.mode.mask rb.capacity p) none

/-- The eviction half of `push` (lines 219-236): `ptr::read` the element
at the physical slot of `readptr` (moving it out, so the slot is
logically uninitialized afterwards), `drop` it, and advance `readptr`. -/
def evictOldest (rb : AllocRingBuffer T) : AllocRingBuffer T :=
  { rb with
    buf := rb.buf.set (rb.mode.mask rb.capacity rb.readptr) none
    readptr := rb.readptr + 1 }

/-- The write half of `push` (lines 238-244): `ptr::write` the new value
at the physical slot of `writeptr` and advance `writeptr`. -/
def writeNew (rb : AllocRingBuffer T) (value : T) : AllocRingBuffer T :=
  { rb with
    buf := rb.buf.set (rb.mode.mask rb.capacity rb.writeptr) (some value)
    writeptr := rb.writeptr + 1 }

/-- `RingBufferWrite::push` (lines 216-246): if full, evict the oldest
element first, then write the new value. -/
def push (rb : AllocRingBuffer T) (value : T) : AllocRingBuffer T :=
  writeNew (if rb.is_full then rb.evictOldest else rb) value

/-- `RingBufferRead::dequeue` (lines 188-201): `None` when empty,
otherwise `ptr::read` the slot of `readptr` (moving the value out, so
the slot is logically uninitialized afterwards) and advance `readptr`.
Returns the dequeued value together with the post-state. -/
def dequeue (rb : AllocRingBuffer T) : Option T × AllocRingBuffer T :=
  if rb.is_empty then (none, rb)
  else
    let index := rb.mode.mask rb.capacity rb.readptr
    let res := rb.buf.getD index none
    (res, { rb with buf := rb.buf.set index none, readptr := rb.readptr + 1 })

/-- `Extend::extend` (lines 206-214): push every element in order. -/
def extend (rb : AllocRingBuffer T) (l : List T) : AllocRingBuffer T :=
  l.foldl push rb

/-- Modelled from the spec: `clear()` from the trait layer (not under
`src/`): "destroys every live element, resets both cursors to 0;
capacity and allocation are retained". -/
def clear (rb : AllocRingBuffer T) : AllocRingBuffer T :=
  { rb with buf := rb.buf.map (fun _ => none), readptr := 0, writeptr := 0 }

/-- `RingBufferExt::fill_with` (lines 174-184): clear, set
`readptr = 0` and `writeptr = capacity`, then write the results of the
successive generator calls into physical slots `0..capacity`.  The
generator `FnMut() -> T` is modelled as `f : Nat → T`, with `f i` the
result of its `i`-th call. -/
def fill_with (rb : AllocRingBuffer T) (f : Nat → T) : AllocRingBuffer T :=
  let rb := rb.clear
  { rb with
    readptr := 0
    writeptr := rb.capacity
    buf := (List.range rb.capacity).map (fun i => some (f i)) }

/-- The raw iteration view: the slot contents at the live logical
positions `readptr, readptr+1, ..., writeptr-1`, oldest to newest. -/
def iterRaw (rb : AllocRingBuffer T) : List (Option T) :=
  (List.range rb.len).map (fun i => rb.slot (rb.readptr + i))

/-- Modelled from the spec: iteration from the trait layer (not under
`src/`): "a sequence of borrowed references to live elements in
oldest-to-newest order". -/
def iter (rb : AllocRingBuffer T) : List T :=
  rb.iterRaw.reduceOption

/-- Modelled from the spec: `peek()` from the trait layer (not under
`src/`): "returns a borrowed reference to the oldest live element
without removing it, or no value if empty". -/
def peek (rb : AllocRingBuffer T) : Option T :=
  if rb.is_empty then none else rb.slot rb.readptr

/-- Modelled from the spec: `back()` from the trait layer (not under
`src/`): "returns a borrowed reference to the most recently pushed
element, or no value if empty". -/
def back (rb : AllocRingBuffer T) : Option T :=
  if rb.is_empty then none else rb.slot (rb.writeptr - 1)

/-- Modelled from the spec: `get(i)` from the trait layer (not under
`src/`): "for `i ≥ 0`, maps to logical position `read_cursor + i`; for
`i < 0`, maps to `write_cursor + i`.  Returns no value if the resulting
logical position falls outside `[read_cursor, write_cursor)`." -/
def get (rb : AllocRingBuffer T) (i : Int) : Option T :=
  let pos : Int := if 0 ≤ i then rb.readptr + i else rb.writeptr + i
  if (rb.readptr : Int) ≤ pos ∧ pos < (rb.writeptr : Int)
  then rb.slot pos.toNat else none

end AllocRingBuffer

/-- `with_capacity_unchecked` (lines 265-276): a freshly allocated,
fully uninitialized buffer with both cursors at 0. -/
def with_capacity_unchecked (T : Type) (cap : Nat) (mode : RingbufferSize) :
    AllocRingBuffer T :=
  { buf := List.replicate cap none
    capacity := cap
    readptr := 0
    writeptr := 0
    mode := mode }

/-- Rust `usize::is_power_of_two` (standard library, modelled by its
mathematical contract: true exactly on the powers of two). -/
def is_power_of_two (n : Nat) : Bool :=
  if n = 0 then false
  else if n = 1 then true
  else if n % 2 = 1 then false
  else is_power_of_two (n / 2)

/-- `with_capacity_non_power_of_two` (lines 294-299): asserts the
capacity is nonzero (`none` models the panic). -/
def with_capacity_non_power_of_two (T : Type) (cap : Nat) :
    Option (AllocRingBuffer T) :=
  if cap = 0 then none
  else some (with_capacity_unchecked T cap .nonPowerOfTwo)

/-- `with_capacity` (lines 317-323): asserts the capacity is nonzero and
a power of two (`none` models the panic). -/
def with_capacity (T : Type) (cap : Nat) : Option (AllocRingBuffer T) :=
  if cap = 0 then none
  else if ¬ is_power_of_two cap then none
  else some (with_capacity_unchecked T cap .powerOfTwo)

/-- `with_capacity_power_of_2` (lines 307-310): capacity `1 << n`. -/
def with_capacity_power_of_2 (T : Type) (n : Nat) : AllocRingBuffer T :=
  with_capacity_unchecked T (2 ^ n) .powerOfTwo

/-- `Default::default` (lines 371-378): capacity
`RINGBUFFER_DEFAULT_CAPACITY`, power-of-two strategy. -/
def defaultRB (T : Type) : AllocRingBuffer T :=
  with_capacity_unchecked T RINGBUFFER_DEFAULT_CAPACITY .powerOfTwo

/-- `FromIterator::from_iter` (lines 360-369): start from `default()`
and push every yielded element in order. -/
def from_iter (T : Type) (l : List T) : AllocRingBuffer T :=
  l.foldl AllocRingBuffer.push (defaultRB T)

/-- `From<[T; N]>` / `From<&[T]>` (lines 89-111): allocate exactly the
source length with the general strategy, then extend with the source
elements in order.  `none` models the panic of the capacity assertion. -/
def from_slice (T : Type) (l : List T) : Option (AllocRingBuffer T) :=
  (with_capacity_non_power_of_two T l.length).map
    (fun rb => rb.extend l)

/-- `From<GrowableAllocRingBuffer<T>>` (lines 113-119).  Modelled from
the spec: `GrowableAllocRingBuffer` and its `drain()` live outside
`src/`; per the spec the drained growable yields its live elements
oldest-to-newest, and `v.len()` is their count, so the drained source is
a plain list `l`. -/
def from_growable (T : Type) (l : List T) : Option (AllocRingBuffer T) :=
  (with_capacity_non_power_of_two T l.length).map
    (fun rb => rb.extend l)

/-- `Clone::clone` (lines 138-149): a fresh unchecked allocation of the
same capacity and strategy, then push a copy of every live element of
the source, oldest to newest. -/
def AllocRingBuffer.clone (rb : AllocRingBuffer T) : AllocRingBuffer T :=
  rb.iter.foldl AllocRingBuffer.push
    (with_capacity_unchecked T rb.capacity rb.mode)

/-- `PartialEq::eq` (lines 151-157): equal capacity, equal length, and
pairwise-equal elements of the two iterations. -/
def AllocRingBuffer.eq_rb (a b : AllocRingBuffer T) : Prop :=
  a.capacity = b.capacity ∧ a.len = b.len ∧
    ∀ p ∈ a.iter.zip b.iter, p.1 = p.2

namespace AllocRingBuffer

/-- The well-formedness invariant of a buffer (spec §3): the allocation
has exactly `capacity` slots, the capacity is strictly positive (and a
power of two for the power-of-two strategy), the cursors bound a live
range of at most `capacity` elements, and every live logical position
has an initialized slot. -/
structure WF (rb : AllocRingBuffer T) : Prop where
  buf_len : rb.buf.length = rb.capacity
  cap_pos : 0 < rb.capacity
  pow2 : rb.mode = .powerOfTwo → ∃ k, rb.capacity = 2 ^ k
  le : rb.readptr ≤ rb.writeptr
  size : rb.writeptr - rb.readptr ≤ rb.capacity
  live : ∀ p, rb.readptr ≤ p → p < rb.writeptr → (rb.slot p).isSome

/-- States reachable from the public constructors by the public
mutating operations. -/
inductive Reachable : {T : Type} → AllocRingBuffer T → Prop where
  | with_capacity {T cap rb} : with_capacity T cap = some rb → Reachable rb
  | with_capacity_non_power_of_two {T cap rb} :
      with_capacity_non_power_of_two T cap = some rb → Reachable rb
  | with_capacity_power_of_2 {T n} : Reachable (with_capacity_power_of_2 T n)
  | defaultRB {T} : Reachable (defaultRB T)
  | push {T} {rb : AllocRingBuffer T} {v} : Reachable rb → Reachable (rb.push v)
  | dequeue {T} {rb : AllocRingBuffer T} : Reachable rb → Reachable (rb.dequeue).2
  | clear {T} {rb : AllocRingBuffer T} : Reachable rb → Reachable rb.clear
  | fill_with {T} {rb : AllocRingBuffer T} {f} :
      Reachable rb → Reachable (rb.fill_with f)
  | extend {T} {rb : AllocRingBuffer T} {l} :
      Reachable rb → Reachable (rb.extend l)
  | clone {T} {rb : AllocRingBuffer T} : Reachable rb → Reachable rb.clone

end AllocRingBuffer

/-- A concrete capacity-2 power-of-two buffer holding `[5, 42]` (the
first concrete scenario of spec §8), used to evaluate theorems on a
concrete input. -/
def wbuf2 : AllocRingBuffer Nat :=
  ((with_capacity_power_of_2 Nat 1).push 5).push 42

/-! ## Helper lemmas -/

namespace AllocRingBuffer

variable {T : Type} {rb : AllocRingBuffer T}

theorem mask_eq_mod_of (mode : RingbufferSize) (cap : Nat)
    (hp : mode = .powerOfTwo → ∃ k, cap = 2 ^ k) (i : Nat) :
    mode.mask cap i = i % cap := by
  cases mode with
  | powerOfTwo =>
    obtain ⟨k, hk⟩ := hp rfl
    subst hk
    exact Nat.and_pow_two_sub_one_eq_mod i k
  | nonPowerOfTwo => rfl

theorem mask_eq_mod (h : WF rb) (i : Nat) :
    rb.mode.mask rb.capacity i = i % rb.capacity :=
  mask_eq_mod_of rb.mode rb.capacity h.pow2 i

/-- Two logical positions strictly less than one period apart hit
different physical slots. -/
theorem mod_ne_of_between {cap a b : Nat} (h1 : a < b) (h2 : b - a < cap) :
    a % cap ≠ b % cap := by
  intro h
  have hdvd : cap ∣ b - a := (Nat.modEq_iff_dvd' (Nat.le_of_lt h1)).mp h
  have := Nat.le_of_dvd (by omega) hdvd
  omega

theorem getD_set_ne {α : Type} {l : List α} {i j : Nat} (h : i ≠ j) (x : α)
    (d : α) : (l.set i x).getD j d = l.getD j d := by
  simp [List.getD_eq_getElem?_getD, List.getElem?_set, h]

theorem getD_set_self {α : Type} {l : List α} {i : Nat} (h : i < l.length)
    (x : α) (d : α) : (l.set i x).getD i d = x := by
  simp [List.getD_eq_getElem?_getD, List.getElem?_set, h]

theorem is_full_iff : rb.is_full = true ↔ rb.writeptr - rb.readptr = rb.capacity := by
  simp [is_full]

theorem is_empty_iff : rb.is_empty = true ↔ rb.writeptr = rb.readptr := by
  simp [is_empty]

theorem length_iterRaw : rb.iterRaw.length = rb.len := by
  simp [iterRaw]

theorem forall_iterRaw_isSome (h : WF rb) : ∀ x ∈ rb.iterRaw, x.isSome = true := by
  intro x hx
  unfold iterRaw at hx
  obtain ⟨i, hi, rfl⟩ := List.mem_map.mp hx
  have hi' := List.mem_range.mp hi
  exact h.live _ (Nat.le_add_right _ _) (by unfold len at hi'; omega)

theorem live_of_forall_iterRaw
    (hall : ∀ x ∈ rb.iterRaw, x.isSome = true) :
    ∀ p, rb.readptr ≤ p → p < rb.writeptr → (rb.slot p).isSome = true := by
  intro p h1 h2
  have hp : rb.slot p = rb.slot (rb.readptr + (p - rb.readptr)) := by
    congr 1; omega
  rw [hp]
  apply hall
  exact List.mem_map_of_mem _ (List.mem_range.mpr (by unfold len; omega))

theorem reduceOption_map_some {α : Type} (l : List α) :
    (l.map some).reduceOption = l := by
  induction l with
  | nil => rfl
  | cons a l ih => simp [List.reduceOption_cons_of_some, ih]

theorem map_some_reduceOption_of_all {α : Type} :
    ∀ {l : List (Option α)}, (∀ x ∈ l, x.isSome = true) →
      l.reduceOption.map some = l
  | [], _ => rfl
  | a :: l, hall => by
    obtain ⟨b, rfl⟩ := Option.isSome_iff_exists.mp (hall a (List.mem_cons_self a l))
    simp only [List.reduceOption_cons_of_some, List.map_cons]
    exact congrArg _ (map_some_reduceOption_of_all
      (fun x hx => hall x (List.mem_cons_of_mem _ hx)))

theorem iterRaw_eq_map_some_iter (h : WF rb) :
    rb.iterRaw = rb.iter.map some :=
  (map_some_reduceOption_of_all (forall_iterRaw_isSome h)).symm

theorem push_writeptr (rb : AllocRingBuffer T) (v : T) :
    (rb.push v).writeptr = rb.writeptr + 1 := by
  unfold push writeNew evictOldest
  split <;> rfl

theorem push_capacity (rb : AllocRingBuffer T) (v : T) :
    (rb.push v).capacity = rb.capacity := by
  unfold push writeNew evictOldest
  split <;> rfl

theorem push_mode (rb : AllocRingBuffer T) (v : T) :
    (rb.push v).mode = rb.mode := by
  unfold push writeNew evictOldest
  split <;> rfl

theorem push_readptr (rb : AllocRingBuffer T) (v : T) :
    (rb.push v).readptr =
      if rb.is_full then rb.readptr + 1 else rb.readptr := by
  unfold push writeNew evictOldest
  split <;> rfl

theorem not_full_lt (h : WF rb) (hf : rb.is_full = false) :
    rb.writeptr - rb.readptr < rb.capacity := by
  have hs := h.size
  have : rb.writeptr - rb.readptr ≠ rb.capacity := by
    simpa [is_full] using hf
  omega

theorem iterRaw_push_not_full (h : WF rb) (v : T) (hf : rb.is_full = false) :
    (rb.push v).iterRaw = rb.iterRaw ++ [some v] := by
  have hcap := h.cap_pos
  have hle := h.le
  have hlt := not_full_lt h hf
  have hpush : rb.push v = rb.writeNew v := by
    unfold push
    rw [hf]
    rfl
  rw [hpush]
  unfold iterRaw writeNew slot len
  simp only [mask_eq_mod h]
  have hw1 : rb.writeptr + 1 - rb.readptr = (rb.writeptr - rb.readptr) + 1 := by
    omega
  rw [hw1, List.range_succ, List.map_append, List.map_singleton]
  congr 1
  · apply List.map_congr_left
    intro i hi
    have hi' := List.mem_range.mp hi
    exact getD_set_ne (Ne.symm (mod_ne_of_between (by omega) (by omega))) _ _
  · have hr : rb.readptr + (rb.writeptr - rb.readptr) = rb.writeptr := by omega
    rw [hr]
    exact congrArg (fun l => [l])
      (getD_set_self (by rw [h.buf_len]; exact Nat.mod_lt _ hcap) _ _)

theorem iterRaw_push_full (h : WF rb) (v : T) (hf : rb.is_full = true) :
    (rb.push v).iterRaw = rb.iterRaw.drop 1 ++ [some v] := by
  have hcap := h.cap_pos
  have hwr : rb.writeptr = rb.readptr + rb.capacity := by
    have := is_full_iff.mp hf
    omega
  have hpush : rb.push v = rb.evictOldest.writeNew v := by
    unfold push
    rw [hf]
    rfl
  rw [hpush]
  unfold iterRaw writeNew evictOldest slot len
  simp only [mask_eq_mod h]
  obtain ⟨c, hc⟩ : ∃ c, rb.capacity = c + 1 := ⟨rb.capacity - 1, by omega⟩
  have hwmod : rb.writeptr % rb.capacity = rb.readptr % rb.capacity := by
    rw [hwr, Nat.add_mod_right]
  rw [hwmod, List.set_set]
  have hlen1 : rb.writeptr + 1 - (rb.readptr + 1) = c + 1 := by omega
  have hlen0 : rb.writeptr - rb.readptr = c + 1 := by omega
  conv_rhs =>
    rw [hlen0, List.range_succ_eq_map, List.map_cons, List.drop_one,
      List.tail_cons, List.map_map]
  rw [hlen1, List.range_succ, List.map_append, List.map_singleton]
  congr 1
  · apply List.map_congr_left
    intro i hi
    have hi' := List.mem_range.mp hi
    have hne : rb.readptr % rb.capacity ≠ (rb.readptr + 1 + i) % rb.capacity :=
      mod_ne_of_between (by omega) (by omega)
    show (rb.buf.set (rb.readptr % rb.capacity) (some v)).getD
        ((rb.readptr + 1 + i) % rb.capacity) none =
      rb.buf.getD ((rb.readptr + (Nat.succ i)) % rb.capacity) none
    rw [getD_set_ne hne]
    have : rb.readptr + 1 + i = rb.readptr + Nat.succ i := by omega
    rw [this]
  · have hr : rb.readptr + 1 + c = rb.writeptr := by omega
    rw [hr, hwmod]
    exact congrArg (fun l => [l])
      (getD_set_self (by rw [h.buf_len]; exact Nat.mod_lt _ hcap) _ _)

theorem iterRaw_push (h : WF rb) (v : T) :
    (rb.push v).iterRaw =
      (if rb.is_full then rb.iterRaw.drop 1 else rb.iterRaw) ++ [some v] := by
  cases hf : rb.is_full with
  | true => rw [if_pos rfl, iterRaw_push_full h v hf]
  | false => rw [if_neg (by simp), iterRaw_push_not_full h v hf]

theorem WF_push (h : WF rb) (v : T) : WF (rb.push v) := by
  refine ⟨?_, ?_, ?_, ?_, ?_, ?_⟩
  · show (rb.push v).buf.length = (rb.push v).capacity
    rw [push_capacity]
    have : (rb.push v).buf.length = rb.buf.length := by
      unfold push writeNew evictOldest
      split <;> simp [List.length_set]
    rw [this, h.buf_len]
  · rw [push_capacity]; exact h.cap_pos
  · rw [push_mode, push_capacity]; exact h.pow2
  · rw [push_writeptr, push_readptr]
    have hle := h.le
    cases hf : rb.is_full <;> simp [hf] <;> omega
  · rw [push_writeptr, push_readptr, push_capacity]
    have hle := h.le
    have hs := h.size
    cases hf : rb.is_full with
    | true =>
      have := is_full_iff.mp hf
      simp only [hf, if_pos]
      omega
    | false =>
      have := not_full_lt h hf
      simp only [hf, if_neg, Bool.false_eq_true, not_false_iff]
      omega
  · apply live_of_forall_iterRaw
    rw [iterRaw_push h v]
    intro x hx
    rcases List.mem_append.mp hx with hx | hx
    · split at hx
      · exact forall_iterRaw_isSome h x (List.mem_of_mem_drop hx)
      · exact forall_iterRaw_isSome h x hx
    · rw [List.mem_singleton.mp hx]
      rfl

theorem len_push (h : WF rb) (v : T) :
    (rb.push v).len = min (rb.len + 1) rb.capacity := by
  have hle := h.le
  have hs := h.size
  simp only [len, push_writeptr, push_readptr]
  cases hf : rb.is_full with
  | true =>
    have := is_full_iff.mp hf
    simp only [if_pos]
    omega
  | false =>
    have := not_full_lt h hf
    simp only [Bool.false_eq_true, if_neg, not_false_iff]
    omega

theorem drop_succ_append {α : Type} (xs ys : List α) (k : Nat) (hx : xs ≠ []) :
    (xs ++ ys).drop (k + 1) = (xs.drop 1 ++ ys).drop k := by
  cases xs with
  | nil => exact absurd rfl hx
  | cons a xs => simp [List.drop_succ_cons]

theorem extend_spec (l : List T) : ∀ (rb : AllocRingBuffer T), WF rb →
    WF (rb.extend l) ∧
    (rb.extend l).iterRaw =
      (rb.iterRaw ++ l.map some).drop (rb.len + l.length - rb.capacity) := by
  induction l with
  | nil =>
    intro rb h
    refine ⟨h, ?_⟩
    have hidx : rb.len - rb.capacity = 0 := by
      have := h.size
      simp only [len]
      omega
    simp [extend, hidx]
  | cons v l ih =>
    intro rb h
    have h1 := WF_push h v
    have hext : rb.extend (v :: l) = (rb.push v).extend l := rfl
    obtain ⟨hwf, hiter⟩ := ih (rb.push v) h1
    refine ⟨hext ▸ hwf, ?_⟩
    rw [hext, hiter, iterRaw_push h v, len_push h v, push_capacity]
    have hle := h.le
    have hs := h.size
    have hlen : rb.iterRaw.length = rb.len := length_iterRaw
    cases hf : rb.is_full with
    | true =>
      have hn : rb.len = rb.capacity := by
        simp only [len]
        exact is_full_iff.mp hf
      rw [if_pos rfl]
      have hi1 : min (rb.len + 1) rb.capacity + l.length - rb.capacity
          = l.length := by omega
      have hi2 : rb.len + (v :: l).length - rb.capacity = l.length + 1 := by
        simp only [List.length_cons]
        omega
      rw [hi1, hi2, List.map_cons]
      have hnil : rb.iterRaw ≠ [] := by
        intro hnil
        have := h.cap_pos
        rw [hnil] at hlen
        simp only [List.length_nil] at hlen
        omega
      have h1le : 1 ≤ rb.iterRaw.length := by
        cases hx : rb.iterRaw with
        | nil => exact absurd hx hnil
        | cons a t => simp
      have hcons : (some v :: l.map some : List (Option T))
          = [some v] ++ l.map some := rfl
      rw [hcons, ← List.append_assoc,
        drop_succ_append _ _ _ (by simp),
        List.drop_append_of_le_length h1le]
    | false =>
      have hn : rb.len < rb.capacity := not_full_lt h hf
      rw [if_neg (by simp [hf])]
      have hi1 : min (rb.len + 1) rb.capacity + l.length - rb.capacity
          = rb.len + (v :: l).length - rb.capacity := by
        simp only [List.length_cons]
        omega
      rw [hi1, List.map_cons]
      have hcons : (some v :: l.map some : List (Option T))
          = [some v] ++ l.map some := rfl
      rw [hcons, ← List.append_assoc]

theorem WF_extend (h : WF rb) (l : List T) : WF (rb.extend l) :=
  (extend_spec l rb h).1

theorem iterRaw_extend (h : WF rb) (l : List T) :
    (rb.extend l).iterRaw =
      (rb.iterRaw ++ l.map some).drop (rb.len + l.length - rb.capacity) :=
  (extend_spec l rb h).2


theorem dequeue_of_empty (he : rb.is_empty = true) : rb.dequeue = (none, rb) := by
  unfold dequeue
  rw [he]
  rfl

theorem dequeue_snd_of_nonempty (he : rb.is_empty = false) :
    (rb.dequeue).2 = { rb with
      buf := rb.buf.set (rb.mode.mask rb.capacity rb.readptr) none
      readptr := rb.readptr + 1 } := by
  unfold dequeue
  rw [he]
  rfl

theorem dequeue_fst_of_nonempty (he : rb.is_empty = false) :
    (rb.dequeue).1 = rb.slot rb.readptr := by
  unfold dequeue slot
  rw [he]
  rfl

theorem WF_dequeue (h : WF rb) : WF (rb.dequeue).2 := by
  cases he : rb.is_empty with
  | true => rw [dequeue_of_empty he]; exact h
  | false =>
    rw [dequeue_snd_of_nonempty he]
    have hwr : rb.readptr < rb.writeptr := by
      have hne : ¬ rb.writeptr = rb.readptr := by simpa [is_empty] using he
      have := h.le
      omega
    have hs := h.size
    refine ⟨by simp [List.length_set, h.buf_len], h.cap_pos, h.pow2,
      by simp; omega, by simp; omega, ?_⟩
    intro p h1 h2
    simp only at h1 h2
    have hlive := h.live p (by omega) h2
    unfold slot at hlive ⊢
    simp only [mask_eq_mod_of rb.mode rb.capacity h.pow2] at hlive ⊢
    rw [getD_set_ne (mod_ne_of_between (by omega) (by omega))]
    exact hlive

theorem WF_clear (h : WF rb) : WF rb.clear := by
  refine ⟨by simp [clear, h.buf_len], h.cap_pos, h.pow2, by simp [clear],
    by simp [clear], ?_⟩
  intro p h1 h2
  simp only [clear] at h1 h2
  omega

theorem WF_fill_with (h : WF rb) (f : Nat → T) : WF (rb.fill_with f) := by
  refine ⟨by simp [fill_with, clear], h.cap_pos, h.pow2, by simp [fill_with, clear],
    by simp [fill_with, clear], ?_⟩
  intro p h1 h2
  simp only [fill_with, clear] at h1 h2 ⊢
  unfold slot
  simp only [mask_eq_mod_of rb.mode rb.capacity h.pow2]
  have hplt : p % rb.capacity < rb.capacity := Nat.mod_lt _ h.cap_pos
  rw [List.getD_eq_getElem?_getD, List.getElem?_map,
    List.getElem?_range hplt]
  rfl

theorem WF_with_capacity_unchecked (cap : Nat) (mode : RingbufferSize)
    (hcap : 0 < cap) (hp : mode = .powerOfTwo → ∃ k, cap = 2 ^ k) :
    WF (with_capacity_unchecked T cap mode) := by
  refine ⟨by simp [with_capacity_unchecked], hcap, hp,
    Nat.le_refl _, by simp [with_capacity_unchecked], ?_⟩
  intro p h1 h2
  simp only [with_capacity_unchecked] at h2
  omega

theorem is_power_of_two_iff (n : Nat) :
    is_power_of_two n = true ↔ ∃ k, n = 2 ^ k := by
  induction n using Nat.strong_induction_on with
  | _ n ih =>
    constructor
    · intro h
      unfold is_power_of_two at h
      by_cases h0 : n = 0
      · rw [if_pos h0] at h
        exact absurd h (by simp)
      · rw [if_neg h0] at h
        by_cases h1 : n = 1
        · exact ⟨0, by omega⟩
        · rw [if_neg h1] at h
          by_cases h2 : n % 2 = 1
          · rw [if_pos h2] at h
            exact absurd h (by simp)
          · rw [if_neg h2] at h
            obtain ⟨k, hk⟩ := (ih (n / 2) (by omega)).mp h
            refine ⟨k + 1, ?_⟩
            have : n = 2 * (n / 2) := by omega
            rw [pow_succ, mul_comm (2 ^ k) 2, ← hk]
            omega
    · rintro ⟨k, rfl⟩
      cases k with
      | zero =>
        unfold is_power_of_two
        norm_num
      | succ k =>
        have hlt : 2 ^ k < 2 ^ (k + 1) := Nat.pow_lt_pow_succ (by omega)
        have hpos : 0 < 2 ^ k := Nat.pos_pow_of_pos k (by omega)
        have hval : 2 ^ (k + 1) = 2 * 2 ^ k := by
          rw [pow_succ, mul_comm]
        unfold is_power_of_two
        rw [if_neg (by omega), if_neg (by omega), if_neg (by omega)]
        have hdiv : 2 ^ (k + 1) / 2 = 2 ^ k := by omega
        rw [hdiv]
        exact (ih (2 ^ k) (by omega)).mpr ⟨k, rfl⟩

theorem extend_capacity (l : List T) : ∀ rb : AllocRingBuffer T,
    (rb.extend l).capacity = rb.capacity := by
  induction l with
  | nil => intro rb; rfl
  | cons v l ih =>
    intro rb
    have : rb.extend (v :: l) = (rb.push v).extend l := rfl
    rw [this, ih, push_capacity]

theorem extend_mode (l : List T) : ∀ rb : AllocRingBuffer T,
    (rb.extend l).mode = rb.mode := by
  induction l with
  | nil => intro rb; rfl
  | cons v l ih =>
    intro rb
    have : rb.extend (v :: l) = (rb.push v).extend l := rfl
    rw [this, ih, push_mode]

theorem length_iter (h : WF rb) : rb.iter.length = rb.len := by
  have := congrArg List.length (iterRaw_eq_map_some_iter h)
  rw [length_iterRaw, List.length_map] at this
  omega

theorem iter_extend (h : WF rb) (l : List T) :
    (rb.extend l).iter =
      (rb.iter ++ l).drop (rb.len + l.length - rb.capacity) := by
  have h1 := iterRaw_extend h l
  rw [iterRaw_eq_map_some_iter h, ← List.map_append, ← List.map_drop] at h1
  unfold iter
  rw [h1, reduceOption_map_some]
  rfl

theorem len_extend (h : WF rb) (l : List T) :
    (rb.extend l).len = min (rb.len + l.length) rb.capacity := by
  have h1 := congrArg List.length (iterRaw_extend h l)
  rw [length_iterRaw, List.length_drop, List.length_append, length_iterRaw,
    List.length_map] at h1
  have := h.size
  have hc := h.cap_pos
  simp only [len] at *
  omega

theorem iterRaw_unchecked (cap : Nat) (mode : RingbufferSize) :
    (with_capacity_unchecked T cap mode).iterRaw = [] := by
  simp [iterRaw, len, with_capacity_unchecked]

theorem iter_unchecked (cap : Nat) (mode : RingbufferSize) :
    (with_capacity_unchecked T cap mode).iter = [] := by
  rw [iter, iterRaw_unchecked]
  rfl

theorem WF_defaultRB : WF (defaultRB T) := by
  apply WF_with_capacity_unchecked
  · norm_num [RINGBUFFER_DEFAULT_CAPACITY]
  · intro _
    exact ⟨10, by norm_num [RINGBUFFER_DEFAULT_CAPACITY]⟩

theorem WF_clone (h : WF rb) : WF rb.clone :=
  WF_extend (WF_with_capacity_unchecked rb.capacity rb.mode h.cap_pos h.pow2)
    rb.iter

theorem clone_capacity (rb : AllocRingBuffer T) :
    rb.clone.capacity = rb.capacity := by
  have : rb.clone = (with_capacity_unchecked T rb.capacity rb.mode).extend
      rb.iter := rfl
  rw [this, extend_capacity]
  rfl

theorem clone_mode (rb : AllocRingBuffer T) : rb.clone.mode = rb.mode := by
  have : rb.clone = (with_capacity_unchecked T rb.capacity rb.mode).extend
      rb.iter := rfl
  rw [this, extend_mode]
  rfl

theorem iter_clone (h : WF rb) : rb.clone.iter = rb.iter := by
  have hfresh : WF (with_capacity_unchecked T rb.capacity rb.mode) :=
    WF_with_capacity_unchecked rb.capacity rb.mode h.cap_pos h.pow2
  have : rb.clone = (with_capacity_unchecked T rb.capacity rb.mode).extend
      rb.iter := rfl
  rw [this, iter_extend hfresh, iter_unchecked]
  have hlen : rb.iter.length = rb.len := length_iter h
  have hle : rb.len ≤ rb.capacity := by
    have := h.size
    simpa [len] using this
  have hidx : (with_capacity_unchecked T rb.capacity rb.mode).len
      + rb.iter.length - (with_capacity_unchecked T rb.capacity rb.mode).capacity
      = 0 := by
    simp only [len, with_capacity_unchecked]
    omega
  rw [hidx]
  simp

theorem zip_self_eq {α : Type} (l : List α) : ∀ p ∈ l.zip l, p.1 = p.2 := by
  induction l with
  | nil => intro p hp; exact absurd hp (by simp)
  | cons a l ih =>
    intro p hp
    rw [List.zip_cons_cons, List.mem_cons] at hp
    rcases hp with rfl | hp
    · rfl
    · exact ih p hp

theorem with_capacity_isSome (T : Type) (cap : Nat) :
    (with_capacity T cap).isSome = true ↔ (cap ≠ 0 ∧ ∃ k, cap = 2 ^ k) := by
  unfold with_capacity
  by_cases h0 : cap = 0
  · rw [if_pos h0]
    simp [h0]
  · rw [if_neg h0]
    by_cases hp : is_power_of_two cap = true
    · rw [if_neg (by simp [hp])]
      simpa [h0] using (is_power_of_two_iff cap).mp hp
    · rw [if_pos (by simpa using hp)]
      have : ¬ ∃ k, cap = 2 ^ k := fun hk => hp ((is_power_of_two_iff cap).mpr hk)
      simp [h0, this]

theorem with_capacity_some {T : Type} {cap : Nat} {rb : AllocRingBuffer T}
    (h : with_capacity T cap = some rb) :
    rb = with_capacity_unchecked T cap .powerOfTwo ∧ cap ≠ 0 := by
  unfold with_capacity at h
  by_cases h0 : cap = 0
  · rw [if_pos h0] at h
    cases h
  · rw [if_neg h0] at h
    by_cases hp : is_power_of_two cap = true
    · rw [if_neg (by simp [hp])] at h
      exact ⟨(Option.some.inj h).symm, h0⟩
    · rw [if_pos (by simpa using hp)] at h
      cases h

theorem with_capacity_non_power_of_two_isSome (T : Type) (cap : Nat) :
    (with_capacity_non_power_of_two T cap).isSome = true ↔ cap ≠ 0 := by
  unfold with_capacity_non_power_of_two
  by_cases h0 : cap = 0
  · rw [if_pos h0]
    simp [h0]
  · rw [if_neg h0]
    simp [h0]

theorem with_capacity_non_power_of_two_some {T : Type} {cap : Nat}
    {rb : AllocRingBuffer T}
    (h : with_capacity_non_power_of_two T cap = some rb) :
    rb = with_capacity_unchecked T cap .nonPowerOfTwo ∧ cap ≠ 0 := by
  unfold with_capacity_non_power_of_two at h
  by_cases h0 : cap = 0
  · rw [if_pos h0] at h
    cases h
  · rw [if_neg h0] at h
    exact ⟨(Option.some.inj h).symm, h0⟩

theorem WF_with_capacity {T : Type} {cap : Nat} {rb : AllocRingBuffer T}
    (h : with_capacity T cap = some rb) : WF rb := by
  obtain ⟨rfl, h0⟩ := with_capacity_some h
  have hp : is_power_of_two cap = true := by
    unfold with_capacity at h
    rw [if_neg h0] at h
    by_cases hp : is_power_of_two cap = true
    · exact hp
    · rw [if_pos (by simpa using hp)] at h
      cases h
  exact WF_with_capacity_unchecked cap .powerOfTwo (by omega)
    (fun _ => (is_power_of_two_iff cap).mp hp)

theorem WF_with_capacity_non_power_of_two {T : Type} {cap : Nat}
    {rb : AllocRingBuffer T}
    (h : with_capacity_non_power_of_two T cap = some rb) : WF rb := by
  obtain ⟨rfl, h0⟩ := with_capacity_non_power_of_two_some h
  exact WF_with_capacity_unchecked cap .nonPowerOfTwo (by omega) (by simp)

theorem WF_of_reachable : ∀ {T : Type} {rb : AllocRingBuffer T},
    Reachable rb → WF rb := by
  intro T rb h
  induction h with
  | with_capacity h => exact WF_with_capacity h
  | with_capacity_non_power_of_two h => exact WF_with_capacity_non_power_of_two h
  | with_capacity_power_of_2 =>
    exact WF_with_capacity_unchecked _ _ (Nat.pos_pow_of_pos _ (by omega))
      (fun _ => ⟨_, rfl⟩)
  | defaultRB => exact WF_defaultRB
  | push _ ih => exact WF_push ih _
  | dequeue _ ih => exact WF_dequeue ih
  | clear _ ih => exact WF_clear ih
  | fill_with _ ih => exact WF_fill_with ih _
  | extend _ ih => exact WF_extend ih _
  | clone _ ih => exact WF_clone ih

theorem wbuf2_reachable : Reachable wbuf2 :=
  Reachable.push (Reachable.push
    (Reachable.with_capacity_power_of_2 (T := Nat) (n := 1)))

theorem wbuf2_WF : WF wbuf2 := WF_of_reachable wbuf2_reachable

/-! ## Claim theorems -/

/-- C1: `push` always succeeds (the write cursor advances and the new
value is written unconditionally); when the buffer is full
(`write_cursor - read_cursor == capacity`), it first reads out and
destroys the element at the physical slot of the read cursor and
advances the read cursor by one, and only then writes the new value at
the physical slot of the write cursor and advances the write cursor by
one (destroy-then-write order, oldest-first eviction: the surviving
contents are the old contents minus the oldest, plus the new value). -/
theorem C1_push_destroy_then_write (rb : AllocRingBuffer T) (v : T)
    (h : WF rb) :
    (rb.push v).writeptr = rb.writeptr + 1 ∧
    (rb.is_full = false →
      rb.push v = rb.writeNew v ∧ (rb.push v).readptr = rb.readptr) ∧
    (rb.is_full = true →
      rb.push v = rb.evictOldest.writeNew v ∧
      rb.evictOldest.slot rb.readptr = none ∧
      rb.evictOldest.readptr = rb.readptr + 1 ∧
      rb.evictOldest.writeptr = rb.writeptr ∧
      (rb.push v).readptr = rb.readptr + 1 ∧
      (rb.push v).iterRaw = rb.iterRaw.drop 1 ++ [some v]) := by
  refine ⟨push_writeptr rb v, ?_, ?_⟩
  · intro hf
    constructor
    · unfold push
      rw [hf]
      rfl
    · rw [push_readptr, if_neg (by simp [hf])]
  · intro hf
    refine ⟨?_, ?_, rfl, rfl, ?_, iterRaw_push_full h v hf⟩
    · unfold push
      rw [hf]
      rfl
    · show (rb.buf.set (rb.mode.mask rb.capacity rb.readptr) none).getD
        (rb.mode.mask rb.capacity rb.readptr) none = none
      by_cases hlt : rb.mode.mask rb.capacity rb.readptr < rb.buf.length
      · rw [getD_set_self hlt]
      · rw [List.getD_eq_getElem?_getD, List.getElem?_set, if_pos rfl,
          if_neg hlt]
        rfl
    · rw [push_readptr, if_pos hf]

theorem C1_witness :
    wbuf2.is_full = true ∧ (wbuf2.push 1).iterRaw = [some 42, some 1] := by
  have h := C1_push_destroy_then_write wbuf2 1 wbuf2_WF
  refine ⟨by decide, ?_⟩
  rw [(h.2.2 (by decide)).2.2.2.2.2]
  decide

/-- C2: for every buffer reachable from any constructor by any sequence
of operations, `read_cursor ≤ write_cursor` and
`write_cursor - read_cursor ≤ capacity` (so `len() ≤ capacity()`), and
once `len() == capacity()` every subsequent push keeps
`len() == capacity()`. -/
theorem C2_cursor_invariant (rb : AllocRingBuffer T) (h : Reachable rb) :
    (rb.readptr ≤ rb.writeptr ∧
      rb.writeptr - rb.readptr ≤ rb.capacity ∧
      rb.len ≤ rb.capacity) ∧
    (∀ v, rb.len = rb.capacity → (rb.push v).len = rb.capacity) := by
  have hw := WF_of_reachable h
  refine ⟨⟨hw.le, hw.size, ?_⟩, ?_⟩
  · have := hw.size
    simpa [len] using this
  · intro v hv
    rw [len_push hw v, hv]
    omega

theorem C2_witness :
    wbuf2.len ≤ wbuf2.capacity ∧ (wbuf2.push 1).len = wbuf2.capacity := by
  have h := C2_cursor_invariant wbuf2 wbuf2_reachable
  exact ⟨h.1.2.2, h.2 1 (by decide)⟩

/-- C3: `dequeue` returns `none` iff the buffer is empty
(`read_cursor == write_cursor`), leaving the state unchanged in that
case; otherwise it returns the element stored at the physical slot of
the read cursor (the oldest live element, `peek`) and advances the read
cursor by exactly one. -/
theorem C3_dequeue_none_iff_empty (rb : AllocRingBuffer T) (h : WF rb) :
    ((rb.dequeue).1 = none ↔ rb.is_empty = true) ∧
    (rb.is_empty = true → rb.dequeue = (none, rb)) ∧
    (rb.is_empty = false →
      (rb.dequeue).1 = rb.slot rb.readptr ∧
      (rb.dequeue).1 = rb.peek ∧
      (rb.dequeue).1.isSome = true ∧
      (rb.dequeue).2.readptr = rb.readptr + 1 ∧
      (rb.dequeue).2.writeptr = rb.writeptr) := by
  have hsome : rb.is_empty = false → (rb.dequeue).1.isSome = true := by
    intro he
    rw [dequeue_fst_of_nonempty he]
    have hlt : rb.readptr < rb.writeptr := by
      have hne : ¬ rb.writeptr = rb.readptr := by simpa [is_empty] using he
      have := h.le
      omega
    exact h.live rb.readptr (Nat.le_refl _) hlt
  refine ⟨⟨?_, ?_⟩, fun he => dequeue_of_empty he, fun he => ?_⟩
  · intro hnone
    cases he : rb.is_empty with
    | true => rfl
    | false =>
      have := hsome he
      rw [hnone] at this
      cases this
  · intro he
    rw [dequeue_of_empty he]
  · refine ⟨dequeue_fst_of_nonempty he, ?_, hsome he, ?_, ?_⟩
    · rw [dequeue_fst_of_nonempty he]
      unfold peek
      rw [he]
      rfl
    · rw [dequeue_snd_of_nonempty he]
    · rw [dequeue_snd_of_nonempty he]

theorem C3_witness :
    (wbuf2.dequeue).1 = some 5 ∧ (wbuf2.dequeue).2.readptr = 1 := by
  have h := (C3_dequeue_none_iff_empty wbuf2 wbuf2_WF).2.2 (by decide)
  refine ⟨?_, ?_⟩
  · rw [h.1]
    decide
  · rw [h.2.2.2.1]
    decide

/-- C4: `get(i)` with `i ≥ 0` looks up logical position
`read_cursor + i` and with `i < 0` looks up `write_cursor + i`,
returning no value exactly when that position falls outside
`[read_cursor, write_cursor)`; consequently, for every non-empty buffer
`get(-1)` equals `back()` and `get(0)` equals `peek()`. -/
theorem C4_get_negative_index (rb : AllocRingBuffer T) (h : WF rb) :
    (∀ i : Int,
      rb.get i = none ↔
        ¬ ((rb.readptr : Int) ≤
            (if 0 ≤ i then (rb.readptr : Int) + i
              else (rb.writeptr : Int) + i) ∧
          (if 0 ≤ i then (rb.readptr : Int) + i
            else (rb.writeptr : Int) + i) < (rb.writeptr : Int))) ∧
    (rb.is_empty = false →
      rb.get (-1) = rb.back ∧ rb.get 0 = rb.peek) := by
  constructor
  · intro i
    unfold get
    by_cases hin : ((rb.readptr : Int) ≤
        (if 0 ≤ i then (rb.readptr : Int) + i else (rb.writeptr : Int) + i) ∧
      (if 0 ≤ i then (rb.readptr : Int) + i else (rb.writeptr : Int) + i)
        < (rb.writeptr : Int))
    · rw [if_pos hin]
      have hso : (rb.slot (if 0 ≤ i then (rb.readptr : Int) + i
          else (rb.writeptr : Int) + i).toNat).isSome = true := by
        apply h.live
        · omega
        · omega
      constructor
      · intro hnone
        rw [hnone] at hso
        cases hso
      · intro hcon
        exact absurd hin hcon
    · rw [if_neg hin]
      simp [hin]
  · intro he
    have hlt : rb.readptr < rb.writeptr := by
      have hne : ¬ rb.writeptr = rb.readptr := by simpa [is_empty] using he
      have := h.le
      omega
    constructor
    · unfold get back
      rw [he]
      simp only [Bool.false_eq_true, if_false]
      rw [if_pos ⟨by omega, by omega⟩]
      have hz : ((rb.writeptr : Int) + -1).toNat = rb.writeptr - 1 := by omega
      rw [if_neg (show ¬ (0 : Int) ≤ -1 by norm_num), hz]
    · unfold get peek
      rw [he]
      simp only [Bool.false_eq_true, if_false]
      rw [if_pos ⟨by omega, by omega⟩]
      have hz : ((rb.readptr : Int) + 0).toNat = rb.readptr := by omega
      rw [if_pos (le_refl (0 : Int)), hz]

theorem C4_witness :
    wbuf2.get (-1) = some 42 ∧ wbuf2.get 0 = some 5 := by
  have h := (C4_get_negative_index wbuf2 wbuf2_WF).2 (by decide)
  refine ⟨?_, ?_⟩
  · rw [h.1]
    decide
  · rw [h.2]
    decide

/-- C5: `extend` pushes every element of the input in order under the
normal push/eviction rule: the surviving iteration is the suffix of
`old contents ++ input` that fits in `capacity`; in particular, pushing
`capacity + k` values into an empty buffer leaves exactly the last
`capacity` values, in push order. -/
theorem C5_extend_keeps_last_capacity (rb : AllocRingBuffer T) (h : WF rb)
    (l : List T) :
    (rb.extend l).iter =
      (rb.iter ++ l).drop (rb.len + l.length - rb.capacity) ∧
    (rb.len = 0 → rb.capacity ≤ l.length →
      (rb.extend l).iter = l.drop (l.length - rb.capacity)) := by
  refine ⟨iter_extend h l, ?_⟩
  intro h0 hcap
  rw [iter_extend h l]
  have hiter0 : rb.iter = [] := by
    have hl := length_iter h
    rw [h0] at hl
    exact List.eq_nil_of_length_eq_zero hl
  rw [hiter0, List.nil_append, h0]
  congr 1
  omega

theorem C5_witness :
    ((with_capacity_power_of_2 Nat 1).extend [5, 42, 1]).iter = [42, 1] := by
  have h := C5_extend_keeps_last_capacity (with_capacity_power_of_2 Nat 1)
    (WF_of_reachable (Reachable.with_capacity_power_of_2 (T := Nat) (n := 1)))
    [5, 42, 1]
  rw [h.2 (by decide) (by decide)]
  decide

/-- C6: `with_capacity` (power-of-two variant) fails exactly when the
capacity is zero or not a power of two, otherwise yielding an empty
buffer of that capacity; `with_capacity_non_power_of_two` (general
variant) fails exactly when the capacity is zero.  In particular
capacity 10 succeeds on the general variant and fails on the
power-of-two variant. -/
theorem C6_checked_constructors (T : Type) :
    (∀ cap, (with_capacity T cap).isSome = true ↔
      (cap ≠ 0 ∧ ∃ k, cap = 2 ^ k)) ∧
    (∀ cap rb, with_capacity T cap = some rb →
      rb.capacity = cap ∧ rb.len = 0 ∧ rb.is_empty = true ∧
      rb.mode = .powerOfTwo) ∧
    (∀ cap, (with_capacity_non_power_of_two T cap).isSome = true ↔
      cap ≠ 0) ∧
    (∀ cap rb, with_capacity_non_power_of_two T cap = some rb →
      rb.capacity = cap ∧ rb.len = 0 ∧ rb.is_empty = true ∧
      rb.mode = .nonPowerOfTwo) := by
  refine ⟨with_capacity_isSome T, ?_,
    with_capacity_non_power_of_two_isSome T, ?_⟩
  · intro cap rb h
    obtain ⟨rfl, -⟩ := with_capacity_some h
    exact ⟨rfl, rfl, rfl, rfl⟩
  · intro cap rb h
    obtain ⟨rfl, -⟩ := with_capacity_non_power_of_two_some h
    exact ⟨rfl, rfl, rfl, rfl⟩

theorem C6_witness :
    with_capacity Nat 10 = none ∧
    (with_capacity_non_power_of_two Nat 10).isSome = true ∧
    (with_capacity Nat 8).isSome = true := by
  have h := C6_checked_constructors Nat
  refine ⟨?_, (h.2.2.1 10).mpr (by decide),
    (h.1 8).mpr ⟨by decide, 3, by norm_num⟩⟩
  have h10 : ¬ ((10 : Nat) ≠ 0 ∧ ∃ k, (10 : Nat) = 2 ^ k) := by
    rintro ⟨-, k, hk⟩
    rcases Nat.lt_or_ge k 4 with hlt | hge
    · interval_cases k <;> norm_num at hk
    · have : 2 ^ 4 ≤ 2 ^ k := Nat.pow_le_pow_right (by omega) hge
      omega
  exact Option.not_isSome_iff_eq_none.mp (fun hs => h10 ((h.1 10).mp hs))

/-- C7: `clone` yields a buffer of the same capacity and strategy whose
iteration is exactly the source's live elements oldest-to-newest, so the
clone is equal to the source under the `PartialEq` relation (equal
capacity, equal length, pairwise-equal elements). -/
theorem C7_clone_equal (rb : AllocRingBuffer T) (h : WF rb) :
    rb.clone.capacity = rb.capacity ∧
    rb.clone.mode = rb.mode ∧
    rb.clone.iter = rb.iter ∧
    rb.clone.len = rb.len ∧
    rb.clone.eq_rb rb := by
  have hwc := WF_clone h
  have hie := iter_clone h
  have hlen : rb.clone.len = rb.len := by
    rw [← length_iter hwc, ← length_iter h, hie]
  refine ⟨clone_capacity rb, clone_mode rb, hie, hlen, ?_⟩
  unfold eq_rb
  exact ⟨clone_capacity rb, hlen, by rw [hie]; exact zip_self_eq rb.iter⟩

theorem C7_witness :
    wbuf2.clone.iter = [5, 42] ∧ wbuf2.clone.capacity = 2 := by
  have h := C7_clone_equal wbuf2 wbuf2_WF
  refine ⟨?_, ?_⟩
  · rw [h.2.2.1]
    decide
  · rw [h.1]
    decide

/-- C8: `fill_with` first clears, then calls the generator exactly
`capacity` times, writing the `i`-th result into physical slot `i`, and
leaves the buffer completely full with `read_cursor = 0` and
`write_cursor = capacity`; the resulting iteration is the sequence of
generator results in call order. -/
theorem C8_fill_with_full (rb : AllocRingBuffer T) (f : Nat → T)
    (h : WF rb) :
    (rb.fill_with f).readptr = 0 ∧
    (rb.fill_with f).writeptr = rb.capacity ∧
    (rb.fill_with f).buf
      = (List.range rb.capacity).map (fun i => some (f i)) ∧
    (rb.fill_with f).is_full = true ∧
    (rb.fill_with f).iter = (List.range rb.capacity).map f := by
  refine ⟨rfl, rfl, rfl, ?_, ?_⟩
  · simp [is_full, fill_with, clear]
  · have hraw : (rb.fill_with f).iterRaw
        = (List.range rb.capacity).map (fun i => some (f i)) := by
      unfold iterRaw
      have hlen : (rb.fill_with f).len = rb.capacity := by
        simp [len, fill_with, clear]
      rw [hlen]
      apply List.map_congr_left
      intro i hi
      have hi' := List.mem_range.mp hi
      show (rb.fill_with f).slot (0 + i) = some (f i)
      unfold slot
      rw [show (rb.fill_with f).mode = rb.mode from rfl,
        show (rb.fill_with f).capacity = rb.capacity from rfl,
        mask_eq_mod_of rb.mode rb.capacity h.pow2,
        Nat.zero_add, Nat.mod_eq_of_lt hi']
      rw [show (rb.fill_with f).buf
        = (List.range rb.capacity).map (fun i => some (f i)) from rfl]
      rw [List.getD_eq_getElem?_getD, List.getElem?_map,
        List.getElem?_range hi']
      rfl
    have hcast : (List.range rb.capacity).map (fun i => some (f i))
        = ((List.range rb.capacity).map f).map some := by
      rw [List.map_map]
      rfl
    unfold iter
    rw [hraw, hcast, reduceOption_map_some]

theorem C8_witness :
    ((with_capacity_power_of_2 Nat 1).fill_with (fun i => i + 7)).iter
      = [7, 8] := by
  have h := C8_fill_with_full (with_capacity_power_of_2 Nat 1)
    (fun i => i + 7)
    (WF_of_reachable (Reachable.with_capacity_power_of_2 (T := Nat) (n := 1)))
  rw [h.2.2.2.2]
  decide

/-- C9: every conversion constructor from a fixed-size sequence, slice,
or drained growable buffer allocates exactly the source length via
`with_capacity_non_power_of_two`, whose assertion fails (panics) exactly
when the source is empty; for every non-empty source the conversion
succeeds and the result has capacity equal to the source length, is
exactly full, and iterates the source elements in order. -/
theorem C9_conversions_panic_on_empty (T : Type) (l : List T) :
    (from_slice T l = none ↔ l = []) ∧
    (from_growable T l = none ↔ l = []) ∧
    (∀ rb, from_slice T l = some rb →
      rb.capacity = l.length ∧ rb.is_full = true ∧ rb.iter = l) ∧
    (∀ rb, from_growable T l = some rb →
      rb.capacity = l.length ∧ rb.is_full = true ∧ rb.iter = l) := by
  have keynone :
      (with_capacity_non_power_of_two T l.length).map
        (fun rb => rb.extend l) = none ↔ l = [] := by
    unfold with_capacity_non_power_of_two
    by_cases h0 : l.length = 0
    · rw [if_pos h0]
      simp [List.length_eq_zero.mp h0]
    · rw [if_neg h0]
      simp only [Option.map_some']
      constructor
      · intro hx
        cases hx
      · intro hl
        exact absurd (by rw [hl]; rfl) h0
  have key : ∀ rb : AllocRingBuffer T,
      (with_capacity_non_power_of_two T l.length).map
        (fun rb => rb.extend l) = some rb →
      rb.capacity = l.length ∧ rb.is_full = true ∧ rb.iter = l := by
    intro rb hrb
    unfold with_capacity_non_power_of_two at hrb
    by_cases h0 : l.length = 0
    · rw [if_pos h0] at hrb
      cases hrb
    · rw [if_neg h0] at hrb
      rw [Option.map_some'] at hrb
      obtain rfl := (Option.some.inj hrb).symm
      have hWFf : WF (with_capacity_unchecked T l.length .nonPowerOfTwo) :=
        WF_with_capacity_unchecked l.length .nonPowerOfTwo (by omega) (by simp)
      refine ⟨by rw [extend_capacity]; rfl, ?_, ?_⟩
      · have h1 : ((with_capacity_unchecked T l.length
            .nonPowerOfTwo).extend l).len = l.length := by
          rw [len_extend hWFf l]
          show min ((with_capacity_unchecked T l.length
            .nonPowerOfTwo).len + l.length) l.length = l.length
          simp [len, with_capacity_unchecked]
        have h2 : ((with_capacity_unchecked T l.length
            .nonPowerOfTwo).extend l).capacity = l.length := by
          rw [extend_capacity]
          rfl
        rw [is_full_iff]
        show ((with_capacity_unchecked T l.length
          .nonPowerOfTwo).extend l).len = _
        rw [h1, h2]
      · rw [iter_extend hWFf l, iter_unchecked, List.nil_append]
        show l.drop ((with_capacity_unchecked T l.length
          .nonPowerOfTwo).len + l.length - l.length) = l
        simp [len, with_capacity_unchecked]
  exact ⟨keynone, keynone, key, key⟩

theorem C9_witness :
    from_slice Nat [] = none ∧
    from_growable Nat [] = none ∧
    ((with_capacity_unchecked Nat 3 .nonPowerOfTwo).extend [1, 2, 3]).iter
      = [1, 2, 3] := by
  have h1 := C9_conversions_panic_on_empty Nat ([] : List Nat)
  have h2 := C9_conversions_panic_on_empty Nat [1, 2, 3]
  exact ⟨h1.1.mpr rfl, h1.2.1.mpr rfl,
    (h2.2.2.1 _ rfl).2.2⟩

/-- C10: building a buffer from an arbitrary iterator
(`FromIterator` / `collect`) always allocates the fixed default
capacity `RINGBUFFER_DEFAULT_CAPACITY = 1024` regardless of how many
elements the iterator yields, and if it yields more than 1024 only the
last 1024 are retained. -/
theorem C10_from_iter_default_capacity (T : Type) (l : List T) :
    (from_iter T l).capacity = 1024 ∧
    (from_iter T l).capacity = RINGBUFFER_DEFAULT_CAPACITY ∧
    (from_iter T l).iter = l.drop (l.length - 1024) := by
  have hdef : from_iter T l = (defaultRB T).extend l := rfl
  have hwf : WF (defaultRB T) := WF_defaultRB
  refine ⟨?_, ?_, ?_⟩
  · rw [hdef, extend_capacity]
    rfl
  · rw [hdef, extend_capacity]
    rfl
  · rw [hdef, iter_extend hwf l]
    have hnil : (defaultRB T).iter = [] :=
      iter_unchecked RINGBUFFER_DEFAULT_CAPACITY .powerOfTwo
    rw [hnil, List.nil_append]
    have hidx : (defaultRB T).len + l.length - (defaultRB T).capacity
        = l.length - 1024 := by
      have ha : (defaultRB T).len = 0 := rfl
      have hb : (defaultRB T).capacity = 1024 := rfl
      rw [ha, hb]
      omega
    rw [hidx]

end AllocRingBuffer
